import Mathlib

/-!
Verification of the graph-ixi / Graphix cross-checker core against its
natural-language specification. The definitions below are shallow embeddings
of the Rust source: pure functions become Lean functions, the loop structure
of each operation is kept, machine integers become Nat, and fallible
operations return Option or Except.
-/

namespace GraphIxi

/-! ## Indexer client: proofs_of_indexing batching
Embeds RealIndexer::proofs_of_indexing from
crates/indexer_client/src/real_indexer.rs. The Rust code splits the request
list into chunks of size 1, calls proofs_of_indexing_batch on each chunk,
extends the result list on success, skips the chunk on failure, and breaks
out of the loop entirely when the error indicates that the indexer does not
support the publicProofsOfIndexing field. -/

/-- A proof of indexing as returned by an indexer: deployment id and block
number, plus the digest. Identities are abstracted to Nat. -/
structure Poi where
  deployment : Nat
  block : Nat
  digest : Nat
  deriving DecidableEq, Repr

/-- A single PoI request (deployment, block number). -/
structure PoiRequest where
  deployment : Nat
  block_number : Nat
  deriving DecidableEq, Repr

/-- Result of one underlying per-chunk GraphQL call: either a list of PoIs,
or an error which may or may not be the NotSupported error (the indexer
lacks the publicProofsOfIndexing field). -/
inductive ChunkResult where
  | ok (pois : List Poi)
  | err (notSupported : Bool)
  deriving DecidableEq, Repr

/-- Whether a chunk result is the NotSupported error. -/
def ChunkResult.isNotSupported : ChunkResult → Bool
  | .ok _ => false
  | .err ns => ns

/-- The PoIs of a successful chunk result, if any. -/
def ChunkResult.okPois : ChunkResult → Option (List Poi)
  | .ok pois => some pois
  | .err _ => none

/-- Embedding of the loop in RealIndexer::proofs_of_indexing. The chunk size
is 1, so each chunk is one request; the response of the indexer to each
chunk is given by the oracle. On success the PoIs are appended; on a
NotSupported error the loop breaks; on any other error the chunk is skipped. -/
def proofs_of_indexing (oracle : PoiRequest → ChunkResult) :
    List PoiRequest → List Poi
  | [] => []
  | r :: rs =>
    match oracle r with
    | .ok pois => pois ++ proofs_of_indexing oracle rs
    | .err ns => if ns then [] else proofs_of_indexing oracle rs

/-- Number of chunks actually requested from the indexer by
proofs_of_indexing: every chunk up to and including the first NotSupported
error, and all chunks when no NotSupported error occurs. -/
def chunksAttempted (oracle : PoiRequest → ChunkResult) :
    List PoiRequest → Nat
  | [] => 0
  | r :: rs =>
    match oracle r with
    | .ok _ => 1 + chunksAttempted oracle rs
    | .err ns => if ns then 1 else 1 + chunksAttempted oracle rs

/-- Concrete oracle used to instantiate theorems about the PoI batch loop:
the request at block 1 succeeds, everything else is a NotSupported error. -/
def oracleA : PoiRequest → ChunkResult := fun r =>
  if r.block_number = 1 then .ok [⟨0, 1, 42⟩] else .err true

/-! ## Indexer client: single-PoI convenience wrapper
Embeds Indexer::proof_of_indexing from crates/indexer-client/src/lib.rs and
backend/crates/common/src/indexer/mod.rs (the two copies are identical): it
calls proofs_of_indexing on the one-element batch and matches on the length
of the result. -/

/-- Embedding of Indexer::proof_of_indexing: the result of the batch call on
the singleton request list is matched; zero results and more than one result
are errors, a single result is returned. The batch call itself is the oracle
argument. -/
def proof_of_indexing (batchCall : List PoiRequest → List Poi)
    (request : PoiRequest) : Except String Poi :=
  match batchCall [request] with
  | [] => .error "no proof of indexing returned"
  | [p] => .ok p
  | _ :: _ :: _ => .error "multiple proofs of indexing returned"

/-- Concrete batch call used to instantiate the single-PoI wrapper theorem. -/
def batchCallB : List PoiRequest → List Poi := fun reqs =>
  reqs.map fun r => ⟨r.deployment, r.block_number, 42⟩

/-! ## Fan-out polling engine
Embeds query_indexing_statuses and query_proofs_of_indexing from
backend/crates/common/src/queries.rs. Indexers are identified by Nat ids;
each indexer's response is given by an oracle; the FuturesUnordered
completion order is modelled as the input list order (the spec leaves the
order unspecified). The metrics sink is modelled as the list of
per-indexer (id, success) outcome events emitted. -/

/-- An indexing status as used by the polling engine: the reporting indexer,
the subgraph deployment, and the number of the latest indexed block. -/
structure IndexingStatus where
  indexer : Nat
  deployment : Nat
  latest_block : Nat
  deriving DecidableEq, Repr

/-- Embedding of query_indexing_statuses: for each indexer the
indexing_statuses call either returns a status list or fails. Successful
results are concatenated and a (id, success) metric is recorded for every
indexer; failures are only recorded, never propagated. -/
def query_indexing_statuses (indexers : List Nat)
    (responses : Nat → Option (List IndexingStatus)) :
    List IndexingStatus × List (Nat × Bool) :=
  match indexers with
  | [] => ([], [])
  | i :: is =>
    let rest := query_indexing_statuses is responses
    match responses i with
    | some statuses => (statuses ++ rest.1, (i, true) :: rest.2)
    | none => (rest.1, (i, false) :: rest.2)

/-- The indexing statuses that mention a given deployment (the groups built
by statuses_by_deployment in query_proofs_of_indexing). -/
def statusesForDeployment (statuses : List IndexingStatus) (d : Nat) :
    List IndexingStatus :=
  statuses.filter fun s => s.deployment == d

/-- The distinct deployments mentioned by the statuses (the deployments
HashSet in query_proofs_of_indexing). -/
def deploymentsOf (statuses : List IndexingStatus) : List Nat :=
  (statuses.map (·.deployment)).dedup

/-- The distinct indexers mentioned by the statuses (the indexers HashSet in
query_proofs_of_indexing). -/
def indexersOf (statuses : List IndexingStatus) : List Nat :=
  (statuses.map (·.indexer)).dedup

/-- The block chosen for a deployment: the block-choice policy applied to
the deployment's status group (the latest_blocks map). The policy itself is
an abstract parameter, as in the source. -/
def chooseBlockFor (policy : List IndexingStatus → Option Nat)
    (statuses : List IndexingStatus) (d : Nat) : Option Nat :=
  policy (statusesForDeployment statuses d)

/-- Embedding of the poi_requests construction inside
query_proofs_of_indexing: for one indexer, the (deployment, block) pairs
such that the policy chose the block for the deployment and the indexer
itself reported a status for that deployment whose latest block has reached
the chosen block. Deployments whose policy choice is none are dropped by
the filter_map. -/
def poiRequestsFor (policy : List IndexingStatus → Option Nat)
    (statuses : List IndexingStatus) (i : Nat) : List (Nat × Nat) :=
  (deploymentsOf statuses).filterMap fun d =>
    match chooseBlockFor policy statuses d with
    | none => none
    | some t =>
      if (statusesForDeployment statuses d).any
          (fun s => s.indexer == i && decide (t ≤ s.latest_block)) then
        some (d, t)
      else none

/-- Embedding of query_proofs_of_indexing: every distinct indexer is sent
its request set and the per-indexer results are flattened. The per-indexer
proofs_of_indexing call is the oracle argument. -/
def query_proofs_of_indexing (policy : List IndexingStatus → Option Nat)
    (statuses : List IndexingStatus)
    (oracle : Nat → List (Nat × Nat) → List Poi) : List Poi :=
  ((indexersOf statuses).map fun i =>
    oracle i (poiRequestsFor policy statuses i)).flatten

/-- Concrete block-choice policy used to instantiate the fan-out theorems. -/
def policyK : List IndexingStatus → Option Nat := fun _ => some 80

/-- Concrete status set used to instantiate the fan-out theorems: indexers
1 and 2 both report deployment 10, at heights 100 and 50. -/
def statusesK : List IndexingStatus := [⟨1, 10, 100⟩, ⟨2, 10, 50⟩]

/-- Concrete per-indexer PoI oracle that answers every request at exactly
the requested (deployment, block). -/
def oracleK : Nat → List (Nat × Nat) → List Poi := fun j reqs =>
  reqs.map fun q => ⟨q.1, q.2, j⟩

/-! ## Agreement analyzer
Embeds QueryRoot::poi_agreement_ratios from
crates/graphix_lib/src/graphql_api/queries.rs, for a single PoI of the
requested indexer. PoI digests are identified by Nat. The BTreeMap of
digest counts is modelled by the ascending list of the distinct digests
paired with their multiplicities; max_by_key returns the last maximum when
iterating in ascending key order. -/

/-- The distinct PoI digests of a deployment in ascending order (the key
order of the poi_counts BTreeMap). -/
def sortedKeys (pois : List Nat) : List Nat :=
  pois.dedup.insertionSort (· ≤ ·)

/-- The poi_counts map: each distinct digest paired with the number of live
PoIs carrying it, in ascending key order. -/
def poiCounts (pois : List Nat) : List (Nat × Nat) :=
  (sortedKeys pois).map fun d => (d, pois.count d)

/-- Rust's Iterator::max_by_key on the count value: keeps the later element
when counts tie, iterating in ascending key order. -/
def pickMax (best p : Nat × Nat) : Nat × Nat :=
  if best.2 ≤ p.2 then p else best

/-- max_by_key over the counts list; none on the empty map. -/
def maxByValue : List (Nat × Nat) → Option (Nat × Nat)
  | [] => none
  | x :: xs => some (xs.foldl pickMax x)

/-- BTreeMap::get on the poi_counts map. -/
def countsGet (pois : List Nat) (d : Nat) : Option Nat :=
  if d ∈ pois then some (pois.count d) else none

/-- The agreement numbers computed for one PoI of the requested indexer. -/
structure PoiAgreementRatio where
  total_indexers : Nat
  n_agreeing_indexers : Nat
  n_disagreeing_indexers : Nat
  has_consensus : Bool
  in_consensus : Bool
  deriving DecidableEq, Repr

/-- Embedding of the per-PoI body of poi_agreement_ratios:
deployment_pois are the live PoI digests of the deployment, mine is the
digest of the requested indexer's PoI. Errors mirror the context calls on
the empty counts map and on a digest missing from the map. -/
def poi_agreement_ratio (deployment_pois : List Nat) (mine : Nat) :
    Except String PoiAgreementRatio :=
  let total := deployment_pois.length
  match maxByValue (poiCounts deployment_pois) with
  | none => .error "inconsistent pois table, no pois"
  | some (maxPoi, maxCount) =>
    let hasConsensus := decide (total / 2 < maxCount)
    match countsGet deployment_pois mine with
    | none => .error "inconsistent pois table, no matching poi"
    | some nAgreeing =>
      .ok { total_indexers := total
            n_agreeing_indexers := nAgreeing
            n_disagreeing_indexers := total - nAgreeing
            has_consensus := hasConsensus
            in_consensus := hasConsensus && (maxPoi == mine) }

/-! ## Retrying PoI writes
Embeds the FutureRetry loop of write in common/src/db/proofs_of_indexing.rs.
The error handler keeps a consecutive_errors counter starting at 0; on each
failed attempt it forwards the error when the counter has reached 5 and
otherwise increments it and waits one second before retrying. The counter
is modelled by the number of retries still allowed, 5 - consecutive_errors,
so that the recursion is structural. The outcome of the n-th attempt
(0-based) is given by the outcome oracle; the result records whether the
write succeeded, the total number of attempts made, and the number of
one-second waits performed. -/

/-- One FutureRetry execution: try the current attempt; on success stop; on
failure either forward the error (no retries left) or wait one second and
retry. -/
def retryLoop (outcome : Nat → Bool) : Nat → Nat → Nat → Bool × Nat × Nat
  | remaining, i, waits =>
    if outcome i then (true, i + 1, waits)
    else
      match remaining with
      | 0 => (false, i + 1, waits)
      | r + 1 => retryLoop outcome r (i + 1) (waits + 1)

/-- Embedding of one chunk's retried database write: a fresh
consecutive_errors counter (5 retries allowed) and attempts numbered from
0. -/
def write_with_retry (outcome : Nat → Bool) : Bool × Nat × Nat :=
  retryLoop outcome 5 0 0

/-! ## Hex rendering of PoI values, block hashes and addresses
Embeds impl Display for Bytes32 (backend/crates/common/src/types.rs and
crates/indexer-client/src/lib.rs), which writes hex::encode of the bytes,
and impl Display for HexString (crates/indexer-client/src/lib.rs), which
writes the 0x prefix followed by hex::encode. Bytes are Nat values below
256; strings are lists of characters. -/

/-- The lowercase hex alphabet used by hex::encode. -/
def hexAlphabet : List Char :=
  "0123456789abcdef".data

/-- The lowercase hex digit of a value below 16. -/
def hexDigit (n : Nat) : Char :=
  hexAlphabet.getD n '0'

/-- hex::encode: two lowercase hex digits per byte, high nibble first. -/
def hexChars (bytes : List Nat) : List Char :=
  bytes.flatMap fun b => [hexDigit (b / 16), hexDigit (b % 16)]

/-- Display for Bytes32 (PoI values and block hashes): bare hex::encode of
the 32 bytes, with no prefix. -/
def bytes32_display (bytes : List Nat) : List Char :=
  hexChars bytes

/-- Display for HexString (indexer addresses): 0x followed by hex::encode. -/
def hex_string_display (bytes : List Nat) : List Char :=
  '0' :: 'x' :: hexChars bytes

/-! ## PoI store: write_pois liveness
Store::write_pois (backend/crates/common/src/store/mod.rs) runs
diesel_queries::write_pois inside one transaction. The body of
diesel_queries::write_pois is not part of this source tree, so it is
modelled from the spec, and write_pois below is a single state transition,
mirroring the transaction wrapper. -/

/-- A stored row of the pois table (entity ids abstracted to Nat, the
created_at column omitted). -/
structure PoiRow where
  indexer : Nat
  deployment : Nat
  block : Nat
  digest : Nat
  live : Bool
  deriving DecidableEq, Repr

/-- A PoI handed to write_pois (the WritablePoI data). -/
structure WritablePoi where
  indexer : Nat
  deployment : Nat
  block : Nat
  digest : Nat
  deriving DecidableEq, Repr

/-- The liveness argument of write_pois. -/
inductive PoiLiveness where
  | Live
  | NotLive
  deriving DecidableEq, Repr

/-- Whether a stored row collides with a batch PoI on the unique
(indexer, deployment, block) triple. -/
def sameTriple (p : WritablePoi) (r : PoiRow) : Bool :=
  r.indexer == p.indexer && r.deployment == p.deployment && r.block == p.block

/-- The row inserted for a batch PoI (not yet live). -/
def rowOfPoi (p : WritablePoi) : PoiRow :=
  ⟨p.indexer, p.deployment, p.block, p.digest, false⟩

/-- Modelled from the spec: the insert half of diesel_queries::write_pois,
whose body is missing from this source tree. Each batch PoI is inserted as
a row; on a unique violation over (indexer, deployment, block), against
either a pre-existing row or a row inserted earlier in the same batch, the
insert is ignored. Returns the newly inserted rows in order. -/
def insertPhase (pre newRows : List PoiRow) :
    List WritablePoi → List PoiRow
  | [] => newRows
  | p :: ps =>
    if (pre ++ newRows).any (sameTriple p) then insertPhase pre newRows ps
    else insertPhase pre (newRows ++ [rowOfPoi p]) ps

/-- Whether a row's (indexer, deployment) pair is touched by the batch. -/
def touchedBy (batch : List WritablePoi) (r : PoiRow) : Bool :=
  batch.any fun p => p.indexer == r.indexer && p.deployment == r.deployment

/-- Sets the live flag of a row. -/
def setLive (b : Bool) (r : PoiRow) : PoiRow :=
  { r with live := b }

/-- Modelled from the spec: diesel_queries::write_pois, whose body is
missing from this source tree, as one atomic state transition (the source
wraps it in a single transaction). All batch PoIs are inserted with
conflicts ignored; when liveness is Live, the live flag of every
pre-existing row whose (indexer, deployment) pair is touched by the batch
is cleared and the newly inserted rows are marked live. -/
def write_pois (rows : List PoiRow) (batch : List WritablePoi)
    (liveness : PoiLiveness) : List PoiRow :=
  let newRows := insertPhase rows [] batch
  match liveness with
  | .NotLive => rows ++ newRows
  | .Live =>
    rows.map (fun r => if touchedBy batch r then setLive false r else r)
      ++ newRows.map (setLive true)

/-- The stored rows of one (indexer, deployment) pair. -/
def rowsForPair (i d : Nat) (rows : List PoiRow) : List PoiRow :=
  rows.filter fun r => r.indexer == i && r.deployment == d

/-! ## PoI store: divergence bisect reports
Embeds Store::write_divergence_bisect_report from
backend/crates/common/src/store/mod.rs. PoI digests are looked up to their
internal ids, the id pair is normalized so the smaller id is first, and a
report row is inserted. The migrations are not part of this source tree;
the UNIQUE (poi1_id, poi2_id) constraint of poi_divergence_bisect_reports
is modelled from the spec schema, and an insert violating it errors (the
source uses a plain insert with no conflict handling). -/

/-- A row of poi_divergence_bisect_reports. -/
structure BisectReport where
  id : Nat
  poi1_id : Nat
  poi2_id : Nat
  divergence_block_id : Nat
  deriving DecidableEq, Repr

/-- The store state relevant to bisect reports: the pois table as a map
from PoI digest rendering to internal id, and the reports table. -/
structure ReportStore where
  pois : List (String × Nat)
  reports : List BisectReport
  nextReportId : Nat
  deriving DecidableEq, Repr

/-- Store::poi, restricted to the internal id: the id of the stored PoI
with the given digest rendering. -/
def poiLookup (st : ReportStore) (poi : String) : Option Nat :=
  (st.pois.find? fun e => e.1 == poi).map (·.2)

/-- Embedding of Store::write_divergence_bisect_report: both PoIs are
looked up (the source unwraps, so a missing PoI is a failure), the id pair
is normalized so the smaller id is first, and the report row is inserted;
a row with the same normalized id pair already present makes the insert
fail with a unique violation. Returns the new report id and store. -/
def write_divergence_bisect_report (st : ReportStore) (poi1 poi2 : String)
    (divergence_block : Nat) : Option (Nat × ReportStore) :=
  match poiLookup st poi1, poiLookup st poi2 with
  | some id1, some id2 =>
    let pair := if id1 < id2 then (id1, id2) else (id2, id1)
    if st.reports.any (fun r => r.poi1_id == pair.1 && r.poi2_id == pair.2)
    then none
    else
      some (st.nextReportId,
        { st with
          reports :=
            st.reports ++ [⟨st.nextReportId, pair.1, pair.2, divergence_block⟩]
          nextReportId := st.nextReportId + 1 })
  | _, _ => none

/-- Concrete store used to instantiate the bisect-report theorems: two
stored PoIs with ids 1 and 2, no reports yet. -/
def storeC : ReportStore :=
  ⟨[("0xaa", 1), ("0xbb", 2)], [], 7⟩

/-- C3: for every list of PoI requests, proofs_of_indexing never fails the
whole batch: it is a total function returning exactly the PoIs of the
per-chunk calls that were attempted and succeeded (the chunks up to the
first NotSupported error), and every returned PoI comes from some
successful chunk, so failed chunks contribute no PoIs and no escaping
exception. -/
theorem c3_proofs_of_indexing_returns_successful_subset
    (oracle : PoiRequest → ChunkResult) (reqs : List PoiRequest) :
    proofs_of_indexing oracle reqs =
      ((reqs.takeWhile fun r => !(oracle r).isNotSupported).filterMap
        fun r => (oracle r).okPois).flatten ∧
    ∀ p ∈ proofs_of_indexing oracle reqs,
      ∃ r ∈ reqs, ∃ ps, oracle r = .ok ps ∧ p ∈ ps := by
  constructor
  · induction reqs with
    | nil => simp [proofs_of_indexing]
    | cons r rs ih =>
      cases h : oracle r with
      | ok pois =>
        simp [proofs_of_indexing, h, ChunkResult.isNotSupported,
          ChunkResult.okPois, ih]
      | err ns =>
        cases ns <;>
          simp [proofs_of_indexing, h, ChunkResult.isNotSupported,
            ChunkResult.okPois, ih]
  · induction reqs with
    | nil => simp [proofs_of_indexing]
    | cons r rs ih =>
      intro p hp
      rw [proofs_of_indexing] at hp
      cases h : oracle r with
      | ok pois =>
        rw [h] at hp
        rcases List.mem_append.mp hp with hin | hin
        · exact ⟨r, List.mem_cons_self r rs, pois, h, hin⟩
        · obtain ⟨q, hq, ps, hps, hpin⟩ := ih p hin
          exact ⟨q, List.mem_cons_of_mem r hq, ps, hps, hpin⟩
      | err ns =>
        rw [h] at hp
        cases ns with
        | true => simp at hp
        | false =>
          simp only [if_neg Bool.false_ne_true] at hp
          obtain ⟨q, hq, ps, hps, hpin⟩ := ih p hp
          exact ⟨q, List.mem_cons_of_mem r hq, ps, hps, hpin⟩

/-- Witness for C3 at a concrete input: the single PoI returned by the
batch loop does come from a successful chunk. -/
theorem c3_witness :
    ∃ r ∈ ([⟨0, 1⟩, ⟨0, 2⟩] : List PoiRequest),
      ∃ ps, oracleA r = .ok ps ∧ (⟨0, 1, 42⟩ : Poi) ∈ ps :=
  (c3_proofs_of_indexing_returns_successful_subset oracleA [⟨0, 1⟩, ⟨0, 2⟩]).2
    ⟨0, 1, 42⟩ (by decide)

/-- C7: once a chunk fails with a NotSupported error, no further chunks are
requested from the indexer for the remainder of the batch, and the result
contains only the PoIs obtained from the chunks processed before that
failure. -/
theorem c7_not_supported_breaks_loop
    (oracle : PoiRequest → ChunkResult) (pre post : List PoiRequest)
    (r : PoiRequest)
    (hpre : ∀ q ∈ pre, (oracle q).isNotSupported = false)
    (hr : (oracle r).isNotSupported = true) :
    chunksAttempted oracle (pre ++ r :: post) = pre.length + 1 ∧
    proofs_of_indexing oracle (pre ++ r :: post) =
      proofs_of_indexing oracle pre := by
  induction pre with
  | nil =>
    cases h : oracle r with
    | ok pois => rw [h] at hr; simp [ChunkResult.isNotSupported] at hr
    | err ns =>
      rw [h] at hr
      cases ns with
      | true => simp [chunksAttempted, proofs_of_indexing, h]
      | false => simp [ChunkResult.isNotSupported] at hr
  | cons q qs ih =>
    have hq : (oracle q).isNotSupported = false :=
      hpre q (List.mem_cons_self q qs)
    have ihq := ih fun x hx => hpre x (List.mem_cons_of_mem q hx)
    cases h : oracle q with
    | ok pois =>
      simp only [List.cons_append, chunksAttempted, proofs_of_indexing, h,
        List.append_eq, ihq.1, ihq.2, List.length_cons]
      exact ⟨by omega, trivial⟩
    | err ns =>
      rw [h] at hq
      simp only [ChunkResult.isNotSupported] at hq
      subst hq
      simp only [List.cons_append, chunksAttempted, proofs_of_indexing, h,
        if_neg Bool.false_ne_true, List.append_eq, ihq.1, ihq.2,
        List.length_cons]
      exact ⟨by omega, trivial⟩

/-- Witness for C7 at a concrete input: with one successful chunk before the
NotSupported failure and one chunk after it, exactly two chunks are
attempted and the result equals the result of the prefix alone. -/
theorem c7_witness :
    chunksAttempted oracleA [⟨0, 1⟩, ⟨0, 2⟩, ⟨0, 3⟩] = 1 + 1 ∧
    proofs_of_indexing oracleA [⟨0, 1⟩, ⟨0, 2⟩, ⟨0, 3⟩] =
      proofs_of_indexing oracleA [⟨0, 1⟩] := by
  have h := c7_not_supported_breaks_loop oracleA [⟨0, 1⟩] [⟨0, 3⟩] ⟨0, 2⟩
    (by decide) (by decide)
  simpa using h

/-- C10: the convenience wrapper proof_of_indexing returns Ok(p) exactly
when the batch call on the singleton request returns the one-element list
with p, and it returns an error whenever the batch returns zero results or
more than one result. -/
theorem c10_single_wrapper (batchCall : List PoiRequest → List Poi)
    (r : PoiRequest) (p : Poi) :
    (proof_of_indexing batchCall r = .ok p ↔ batchCall [r] = [p]) ∧
    ((batchCall [r]).length ≠ 1 →
      ∃ e, proof_of_indexing batchCall r = .error e) := by
  rcases hl : batchCall [r] with _ | ⟨a, _ | ⟨b, t⟩⟩ <;>
    simp [proof_of_indexing, hl]

/-- Witness for C10 at a concrete input: the wrapper returns the unique PoI
that the batch call produces for the singleton request. -/
theorem c10_witness :
    proof_of_indexing batchCallB ⟨3, 9⟩ = .ok ⟨3, 9, 42⟩ :=
  (c10_single_wrapper batchCallB ⟨3, 9⟩ ⟨3, 9, 42⟩).1.mpr (by decide)

/-- C4: query_indexing_statuses returns exactly the concatenation of the
status lists of the indexers whose indexing_statuses call succeeded,
records exactly one (id, success) outcome metric for every queried indexer,
and by totality never propagates a per-indexer error to the caller. -/
theorem c4_query_indexing_statuses_resilient (indexers : List Nat)
    (responses : Nat → Option (List IndexingStatus)) :
    (query_indexing_statuses indexers responses).1 =
      (indexers.filterMap responses).flatten ∧
    (query_indexing_statuses indexers responses).2 =
      indexers.map fun i => (i, (responses i).isSome) := by
  induction indexers with
  | nil => simp [query_indexing_statuses]
  | cons i is ih =>
    cases h : responses i with
    | some statuses => simp [query_indexing_statuses, h, ih.1, ih.2]
    | none => simp [query_indexing_statuses, h, ih.1, ih.2]

/-- Characterization of membership in the per-indexer request set built by
query_proofs_of_indexing. -/
theorem mem_poiRequestsFor (policy : List IndexingStatus → Option Nat)
    (statuses : List IndexingStatus) (i d t : Nat) :
    (d, t) ∈ poiRequestsFor policy statuses i ↔
      chooseBlockFor policy statuses d = some t ∧
      ∃ s ∈ statuses, s.indexer = i ∧ s.deployment = d ∧ t ≤ s.latest_block := by
  unfold poiRequestsFor
  rw [List.mem_filterMap]
  constructor
  · rintro ⟨d1, hd1, hf⟩
    cases hc : chooseBlockFor policy statuses d1 with
    | none => rw [hc] at hf; simp at hf
    | some t1 =>
      simp only [hc] at hf
      by_cases hany : ((statusesForDeployment statuses d1).any
          fun s => s.indexer == i && decide (t1 ≤ s.latest_block)) = true
      · rw [if_pos hany, Option.some.injEq, Prod.mk.injEq] at hf
        obtain ⟨rfl, rfl⟩ := hf
        refine ⟨hc, ?_⟩
        rw [List.any_eq_true] at hany
        obtain ⟨s, hs, hcond⟩ := hany
        rw [statusesForDeployment, List.mem_filter] at hs
        rw [Bool.and_eq_true, beq_iff_eq, decide_eq_true_eq] at hcond
        exact ⟨s, hs.1, hcond.1, by simpa using hs.2, hcond.2⟩
      · rw [if_neg hany] at hf
        simp at hf
  · rintro ⟨hc, s, hs, hi, hd, hle⟩
    refine ⟨d, ?_, ?_⟩
    · unfold deploymentsOf
      rw [List.mem_dedup]
      exact List.mem_map.mpr ⟨s, hs, hd⟩
    · have hany2 : ((statusesForDeployment statuses d).any
          fun s => s.indexer == i && decide (t ≤ s.latest_block)) = true := by
        rw [List.any_eq_true]
        exact ⟨s, List.mem_filter.mpr ⟨hs, by simp [hd]⟩, by simp [hi, hle]⟩
      simp [hc, hany2]

/-- C5: a PoI request (deployment, target block) is issued to an indexer if
and only if the block-choice policy chose that block for the deployment and
the indexer itself reported a status for the deployment whose latest block
has reached the target; consequently, whenever the indexer answers requests
at the requested coordinates, every PoI returned for a deployment is at the
single per-deployment target block. -/
theorem c5_poi_requests_iff (policy : List IndexingStatus → Option Nat)
    (statuses : List IndexingStatus)
    (oracle : Nat → List (Nat × Nat) → List Poi) (i d t : Nat) :
    ((d, t) ∈ poiRequestsFor policy statuses i ↔
      chooseBlockFor policy statuses d = some t ∧
      ∃ s ∈ statuses, s.indexer = i ∧ s.deployment = d ∧
        t ≤ s.latest_block) ∧
    ((∀ j reqs p, p ∈ oracle j reqs → (p.deployment, p.block) ∈ reqs) →
      ∀ p ∈ query_proofs_of_indexing policy statuses oracle,
        chooseBlockFor policy statuses p.deployment = some p.block) := by
  refine ⟨mem_poiRequestsFor policy statuses i d t, ?_⟩
  intro hfaith p hp
  unfold query_proofs_of_indexing at hp
  rw [List.mem_flatten] at hp
  obtain ⟨l, hl, hpl⟩ := hp
  rw [List.mem_map] at hl
  obtain ⟨j, hj, rfl⟩ := hl
  have hmem := hfaith j _ p hpl
  exact ((mem_poiRequestsFor policy statuses j p.deployment p.block).mp
    hmem).1

/-- Witness for C5 at a concrete input: with a policy choosing block 80 and
indexer 1 synced to height 100, the request (deployment 10, block 80) is
issued to indexer 1, and the PoI the faithful oracle returns for it is at
the chosen block. -/
theorem c5_witness :
    (10, 80) ∈ poiRequestsFor policyK statusesK 1 ∧
    chooseBlockFor policyK statusesK (Poi.deployment ⟨10, 80, 1⟩) =
      some (Poi.block ⟨10, 80, 1⟩) := by
  have h := c5_poi_requests_iff policyK statusesK oracleK 1 10 80
  refine ⟨h.1.mpr (by decide), ?_⟩
  refine h.2 ?_ ⟨10, 80, 1⟩ (by decide)
  intro j reqs p hp
  simp only [oracleK, List.mem_map] at hp
  obtain ⟨q, hq, rfl⟩ := hp
  simpa using hq

/-- The fold implementing max_by_key returns an element of the list that is
maximal in the second component. -/
theorem foldl_pickMax_spec (xs : List (Nat × Nat)) (x : Nat × Nat) :
    xs.foldl pickMax x ∈ x :: xs ∧
    ∀ y ∈ x :: xs, y.2 ≤ (xs.foldl pickMax x).2 := by
  induction xs generalizing x with
  | nil => simp
  | cons z zs ih =>
    have h := ih (pickMax x z)
    have hfold : (z :: zs).foldl pickMax x = zs.foldl pickMax (pickMax x z) :=
      rfl
    have hpm_mem : pickMax x z = x ∨ pickMax x z = z := by
      unfold pickMax
      split
      · exact Or.inr rfl
      · exact Or.inl rfl
    have hx_le : x.2 ≤ (pickMax x z).2 := by
      unfold pickMax; split <;> omega
    have hz_le : z.2 ≤ (pickMax x z).2 := by
      unfold pickMax; split <;> omega
    rw [hfold]
    constructor
    · rcases List.mem_cons.mp h.1 with h1 | h1
      · rw [h1]
        rcases hpm_mem with h2 | h2 <;> rw [h2]
        · exact List.mem_cons_self _ _
        · exact List.mem_cons_of_mem _ (List.mem_cons_self _ _)
      · exact List.mem_cons_of_mem _ (List.mem_cons_of_mem _ h1)
    · intro y hy
      have hpm_bound := h.2 (pickMax x z) (List.mem_cons_self _ _)
      rcases List.mem_cons.mp hy with rfl | hy2
      · exact le_trans hx_le hpm_bound
      · rcases List.mem_cons.mp hy2 with rfl | hy3
        · exact le_trans hz_le hpm_bound
        · exact h.2 y (List.mem_cons_of_mem _ hy3)

/-- The sorted key list of the counts map holds exactly the digests that
occur among the deployment's PoIs. -/
theorem mem_sortedKeys (pois : List Nat) (d : Nat) :
    d ∈ sortedKeys pois ↔ d ∈ pois := by
  unfold sortedKeys
  constructor
  · intro h
    exact List.mem_dedup.mp ((List.perm_insertionSort _ _).mem_iff.mp h)
  · intro h
    exact (List.perm_insertionSort _ _).mem_iff.mpr (List.mem_dedup.mpr h)

/-- Every digest of the deployment appears in the counts map with its
multiplicity. -/
theorem mem_poiCounts (pois : List Nat) (d : Nat) (h : d ∈ pois) :
    (d, pois.count d) ∈ poiCounts pois := by
  unfold poiCounts
  exact List.mem_map.mpr ⟨d, (mem_sortedKeys pois d).mpr h, rfl⟩

/-- C6: on a deployment with at least one live PoI that includes the
indexer's own PoI, the agreement analyzer returns total = the number of
live PoIs, n_agreeing = the multiplicity of the indexer's digest,
n_disagreeing = total minus n_agreeing, has_consensus exactly when the
largest digest multiplicity exceeds total / 2 (integer division), and
in_consensus = has_consensus and the indexer's digest being the majority
digest; on a deployment with zero live PoIs it errors. -/
theorem c6_agreement_ratios (pois : List Nat) (mine : Nat) :
    (pois = [] → ∃ e, poi_agreement_ratio pois mine = .error e) ∧
    (mine ∈ pois →
      ∃ r maxPoi, poi_agreement_ratio pois mine = .ok r ∧
        maxPoi ∈ pois ∧
        (∀ d ∈ pois, pois.count d ≤ pois.count maxPoi) ∧
        r.total_indexers = pois.length ∧
        r.n_agreeing_indexers = pois.count mine ∧
        r.n_disagreeing_indexers = pois.length - pois.count mine ∧
        r.has_consensus = decide (pois.length / 2 < pois.count maxPoi) ∧
        r.in_consensus = (r.has_consensus && (maxPoi == mine))) := by
  constructor
  · rintro rfl
    exact ⟨_, rfl⟩
  · intro hmine
    have hne : poiCounts pois ≠ [] := by
      intro h
      have hm := mem_poiCounts pois mine hmine
      rw [h] at hm
      simp at hm
    obtain ⟨k, ks, hks⟩ := List.exists_cons_of_ne_nil hne
    have hmax : maxByValue (poiCounts pois) = some (ks.foldl pickMax k) := by
      rw [hks]; rfl
    have hspec := foldl_pickMax_spec ks k
    rw [← hks] at hspec
    have hmpmem : (ks.foldl pickMax k).1 ∈ pois ∧
        (ks.foldl pickMax k).2 = pois.count (ks.foldl pickMax k).1 := by
      have hm := hspec.1
      unfold poiCounts at hm
      rw [List.mem_map] at hm
      obtain ⟨d, hd, heq⟩ := hm
      rw [← heq]
      exact ⟨(mem_sortedKeys pois d).mp hd, rfl⟩
    have hbound : ∀ d ∈ pois, pois.count d ≤ (ks.foldl pickMax k).2 :=
      fun d hd => hspec.2 (d, pois.count d) (mem_poiCounts pois d hd)
    have hget : countsGet pois mine = some (pois.count mine) := by
      unfold countsGet
      rw [if_pos hmine]
    have hok : poi_agreement_ratio pois mine =
        .ok ⟨pois.length, pois.count mine, pois.length - pois.count mine,
          decide (pois.length / 2 < (ks.foldl pickMax k).2),
          decide (pois.length / 2 < (ks.foldl pickMax k).2) &&
            ((ks.foldl pickMax k).1 == mine)⟩ := by
      unfold poi_agreement_ratio
      simp only [hmax, hget]
    rw [hmpmem.2] at hok
    refine ⟨_, (ks.foldl pickMax k).1, hok, hmpmem.1, ?_, rfl, rfl, rfl,
      rfl, rfl⟩
    intro d hd
    rw [← hmpmem.2]
    exact hbound d hd

/-- Witness for C6 at a concrete input: three live PoIs of which two share
the digest 5, analyzed for an indexer holding digest 5. -/
theorem c6_witness :
    ∃ r maxPoi, poi_agreement_ratio [5, 5, 3] 5 = .ok r ∧
      maxPoi ∈ [5, 5, 3] ∧
      (∀ d ∈ [5, 5, 3], List.count d [5, 5, 3] ≤ List.count maxPoi [5, 5, 3]) ∧
      r.total_indexers = List.length [5, 5, 3] ∧
      r.n_agreeing_indexers = List.count 5 [5, 5, 3] ∧
      r.n_disagreeing_indexers = List.length [5, 5, 3] - List.count 5 [5, 5, 3] ∧
      r.has_consensus =
        decide (List.length [5, 5, 3] / 2 < List.count maxPoi [5, 5, 3]) ∧
      r.in_consensus = (r.has_consensus && (maxPoi == 5)) :=
  (c6_agreement_ratios [5, 5, 3] 5).2 (by decide)

/-- Unfolding retryLoop on a successful attempt. -/
theorem retryLoop_succeed (outcome : Nat → Bool) (r i w : Nat)
    (h : outcome i = true) :
    retryLoop outcome r i w = (true, i + 1, w) := by
  rw [retryLoop.eq_def]
  simp [h]

/-- Unfolding retryLoop on a failed attempt with no retries left. -/
theorem retryLoop_fail_zero (outcome : Nat → Bool) (i w : Nat)
    (h : outcome i = false) :
    retryLoop outcome 0 i w = (false, i + 1, w) := by
  rw [retryLoop.eq_def]
  simp [h]

/-- Unfolding retryLoop on a failed attempt with retries left: wait one
second and retry. -/
theorem retryLoop_fail_succ (outcome : Nat → Bool) (r i w : Nat)
    (h : outcome i = false) :
    retryLoop outcome (r + 1) i w = retryLoop outcome r (i + 1) (w + 1) := by
  rw [retryLoop.eq_def]
  simp [h]

/-- When every allowed attempt fails, the retry loop surfaces the error
after r + 1 attempts and r one-second waits. -/
theorem retryLoop_all_fail (outcome : Nat → Bool) :
    ∀ r i w, (∀ k ≤ r, outcome (i + k) = false) →
      retryLoop outcome r i w = (false, i + r + 1, w + r) := by
  intro r
  induction r with
  | zero =>
    intro i w h
    have h0 : outcome i = false := by simpa using h 0 (le_refl 0)
    rw [retryLoop_fail_zero outcome i w h0]
    simp
  | succ r ih =>
    intro i w h
    have h0 : outcome i = false := by simpa using h 0 (Nat.zero_le _)
    rw [retryLoop_fail_succ outcome r i w h0]
    have hrec := ih (i + 1) (w + 1) fun k hk => by
      have h2 := h (k + 1) (by omega)
      have e : i + 1 + k = i + (k + 1) := by omega
      rw [e]
      exact h2
    rw [hrec]
    have e1 : i + 1 + r + 1 = i + (r + 1) + 1 := by omega
    have e2 : w + 1 + r = w + (r + 1) := by omega
    rw [e1, e2]

/-- When the first success is the k-th attempt (0-based) and it is within
the allowed attempts, the retry loop stops successfully after k + 1
attempts and k one-second waits. -/
theorem retryLoop_first_success (outcome : Nat → Bool) :
    ∀ k r i w, k ≤ r → outcome (i + k) = true →
      (∀ j < k, outcome (i + j) = false) →
      retryLoop outcome r i w = (true, i + k + 1, w + k) := by
  intro k
  induction k with
  | zero =>
    intro r i w _ hsucc _
    have h0 : outcome i = true := by simpa using hsucc
    rw [retryLoop_succeed outcome r i w h0]
    simp
  | succ k ih =>
    intro r i w hk hsucc hprev
    have h0 : outcome i = false := by simpa using hprev 0 (by omega)
    cases r with
    | zero => omega
    | succ r =>
      rw [retryLoop_fail_succ outcome r i w h0]
      have hrec := ih r (i + 1) (w + 1) (by omega)
        (by
          have e : i + 1 + k = i + (k + 1) := by omega
          rw [e]
          exact hsucc)
        (fun j hj => by
          have h2 := hprev (j + 1) (by omega)
          have e : i + 1 + j = i + (j + 1) := by omega
          rw [e]
          exact h2)
      rw [hrec]
      have e1 : i + 1 + k + 1 = i + (k + 1) + 1 := by omega
      have e2 : w + 1 + k = w + (k + 1) := by omega
      rw [e1, e2]

/-- C8 counterexample: on a write whose first five attempts fail and whose
sixth succeeds, the code does not surface an error after the five
consecutive failures; it performs a sixth attempt, which succeeds, so six
attempts in total are made. -/
theorem c8_counterexample :
    (write_with_retry fun k => decide (k = 5)).1 = true ∧
    (write_with_retry fun k => decide (k = 5)).2.1 = 6 ∧
    ¬(6 : Nat) ≤ 5 := by
  decide

/-- C8 as amended: the write is attempted up to six times, the initial
attempt plus at most five retries, each retry preceded by a one-second
wait; the error is surfaced only after six consecutive failed attempts
(with five waits), and the first success ends the loop, so only failed
attempts accumulate toward surfacing. -/
theorem c8_retry_schedule (outcome : Nat → Bool) :
    ((∀ k < 6, outcome k = false) →
      write_with_retry outcome = (false, 6, 5)) ∧
    (∀ k < 6, outcome k = true → (∀ j < k, outcome j = false) →
      write_with_retry outcome = (true, k + 1, k)) := by
  constructor
  · intro h
    have hall := retryLoop_all_fail outcome 5 0 0 fun k hk => by
      simpa using h k (by omega)
    simpa [write_with_retry] using hall
  · intro k hk hsucc hprev
    have hfs := retryLoop_first_success outcome k 5 0 0 (by omega)
      (by simpa using hsucc) (fun j hj => by simpa using hprev j hj)
    simpa [write_with_retry] using hfs

/-- Witness for C8 at a concrete input: a write that always fails surfaces
the error after exactly six attempts and five one-second waits. -/
theorem c8_witness :
    write_with_retry (fun _ => false) = (false, 6, 5) :=
  (c8_retry_schedule fun _ => false).1 fun _ _ => rfl

/-- Every hex digit produced by hexDigit belongs to the lowercase hex
alphabet. -/
theorem hexDigit_mem (n : Nat) : hexDigit n ∈ hexAlphabet := by
  unfold hexDigit
  by_cases h : n < 16
  · interval_cases n <;> decide
  · have hlen : hexAlphabet.length ≤ n := by
      have h16 : hexAlphabet.length = 16 := rfl
      omega
    rw [List.getD_eq_default _ _ hlen]
    decide

/-- Every character of a hex encoding belongs to the lowercase hex
alphabet. -/
theorem hexChars_sound (bytes : List Nat) :
    ∀ c ∈ hexChars bytes, c ∈ hexAlphabet := by
  intro c hc
  unfold hexChars at hc
  rw [List.mem_flatMap] at hc
  obtain ⟨b, _, hcmem⟩ := hc
  rcases List.mem_cons.mp hcmem with rfl | h2
  · exact hexDigit_mem _
  · rcases List.mem_cons.mp h2 with rfl | h3
    · exact hexDigit_mem _
    · simp at h3

/-- C9 counterexample: the all-zero 32-byte PoI value renders through the
Bytes32 Display implementation with first two characters 00, not the
claimed 0x prefix. -/
theorem c9_counterexample :
    (bytes32_display (List.replicate 32 0)).take 2 = ['0', '0'] ∧
    (['0', '0'] : List Char) ≠ ['0', 'x'] := by
  decide

/-- C9 as amended: PoI values and block hashes (Bytes32) render as bare
lowercase hex with no 0x prefix, while HexString values (indexer
addresses) render as 0x followed by the same lowercase hex encoding. -/
theorem c9_hex_rendering (bytes : List Nat) :
    (hex_string_display bytes).take 2 = ['0', 'x'] ∧
    hex_string_display bytes = '0' :: 'x' :: bytes32_display bytes ∧
    (∀ c ∈ bytes32_display bytes, c ∈ hexAlphabet) ∧
    (bytes ≠ [] → (bytes32_display bytes).take 2 ≠ ['0', 'x']) := by
  refine ⟨rfl, rfl, hexChars_sound bytes, ?_⟩
  intro hne hcontra
  obtain ⟨b, bs, rfl⟩ := List.exists_cons_of_ne_nil hne
  have htake : (bytes32_display (b :: bs)).take 2 =
      [hexDigit (b / 16), hexDigit (b % 16)] := by
    simp [bytes32_display, hexChars]
  rw [htake] at hcontra
  have hx : hexDigit (b % 16) = 'x' := by
    simpa using congrArg (fun l => l.getD 1 ' ') hcontra
  have hmem : 'x' ∈ hexAlphabet := hx ▸ hexDigit_mem (b % 16)
  exact absurd hmem (by decide)

/-- Witness for C9 at a concrete input: a nonempty byte string rendered
through Bytes32 Display does not carry the 0x prefix. -/
theorem c9_witness :
    (bytes32_display [171, 205]).take 2 ≠ ['0', 'x'] :=
  (c9_hex_rendering [171, 205]).2.2.2 (by decide)

/-- Setting the live flag commutes with restricting to one
(indexer, deployment) pair, since it leaves both key fields unchanged. -/
theorem rowsForPair_map_setLive (i d : Nat) (b : Bool) :
    ∀ l, rowsForPair i d (l.map (setLive b)) =
      (rowsForPair i d l).map (setLive b) := by
  intro l
  induction l with
  | nil => rfl
  | cons r rs ih =>
    unfold rowsForPair at *
    simp only [List.map_cons, List.filter_cons]
    have hpr : ((setLive b r).indexer == i && (setLive b r).deployment == d)
        = (r.indexer == i && r.deployment == d) := rfl
    rw [hpr]
    by_cases hm : (r.indexer == i && r.deployment == d) = true
    · rw [if_pos hm, if_pos hm, List.map_cons, ih]
    · rw [if_neg hm, if_neg hm, ih]

/-- The live-clearing pass of write_pois maps every stored row of a pair
touched by the batch to its not-live copy. -/
theorem rowsForPair_map_clear (batch : List WritablePoi) (i d : Nat)
    (p : WritablePoi) (hp : p ∈ batch) (hpi : p.indexer = i)
    (hpd : p.deployment = d) :
    ∀ rows, rowsForPair i d
        (rows.map fun r => if touchedBy batch r then setLive false r else r) =
      (rowsForPair i d rows).map (setLive false) := by
  intro rows
  induction rows with
  | nil => rfl
  | cons r rs ih =>
    unfold rowsForPair at *
    simp only [List.map_cons, List.filter_cons]
    by_cases ht : touchedBy batch r = true
    · rw [ht, if_pos rfl]
      have hpr : ((setLive false r).indexer == i &&
          (setLive false r).deployment == d)
          = (r.indexer == i && r.deployment == d) := rfl
      rw [hpr]
      by_cases hm : (r.indexer == i && r.deployment == d) = true
      · rw [if_pos hm, if_pos hm, List.map_cons, ih]
      · rw [if_neg hm, if_neg hm, ih]
    · rw [Bool.not_eq_true] at ht
      rw [ht, if_neg Bool.false_ne_true]
      by_cases hm : (r.indexer == i && r.deployment == d) = true
      · have hri : r.indexer = i :=
          beq_iff_eq.mp ((Bool.and_eq_true _ _).mp hm).1
        have hrd : r.deployment = d :=
          beq_iff_eq.mp ((Bool.and_eq_true _ _).mp hm).2
        have htouch : touchedBy batch r = true := by
          rw [touchedBy, List.any_eq_true]
          exact ⟨p, hp, by simp [hpi, hpd, hri, hrd]⟩
        rw [ht] at htouch
        exact absurd htouch Bool.false_ne_true
      · rw [if_neg hm, if_neg hm, ih]

/-- Once the unique batch PoI of a pair has been inserted, processing the
rest of the batch adds no further row of that pair. -/
theorem insertPhase_pair_stable (i d : Nat) (p : WritablePoi) :
    ∀ (batch : List WritablePoi) (pre newRows : List PoiRow),
      (∀ q ∈ batch, q.indexer = i → q.deployment = d → q = p) →
      rowOfPoi p ∈ newRows →
      rowsForPair i d (insertPhase pre newRows batch) =
        rowsForPair i d newRows := by
  intro batch
  induction batch with
  | nil => intro pre newRows _ _; rfl
  | cons q qs ih =>
    intro pre newRows huniq hpnew
    rw [insertPhase]
    by_cases hconf : ((pre ++ newRows).any (sameTriple q)) = true
    · rw [if_pos hconf]
      exact ih pre newRows
        (fun x hx hxi hxd => huniq x (List.mem_cons_of_mem _ hx) hxi hxd)
        hpnew
    · rw [if_neg hconf]
      have hqpair : ¬(q.indexer = i ∧ q.deployment = d) := by
        rintro ⟨hqi, hqd⟩
        have hq : q = p := huniq q (List.mem_cons_self _ _) hqi hqd
        subst hq
        apply hconf
        rw [List.any_eq_true]
        exact ⟨rowOfPoi q, List.mem_append_right _ hpnew,
          by simp [sameTriple, rowOfPoi]⟩
      rw [ih pre (newRows ++ [rowOfPoi q])
        (fun x hx hxi hxd => huniq x (List.mem_cons_of_mem _ hx) hxi hxd)
        (List.mem_append_left _ hpnew)]
      unfold rowsForPair
      rw [List.filter_append]
      have hsingle : List.filter
          (fun r => r.indexer == i && r.deployment == d) [rowOfPoi q] = [] := by
        have hb : ((rowOfPoi q).indexer == i &&
            (rowOfPoi q).deployment == d) = false := by
          cases hqi : q.indexer == i with
          | false => simp [rowOfPoi, hqi]
          | true =>
            cases hqd : q.deployment == d with
            | false => simp [rowOfPoi, hqi, hqd]
            | true =>
              exact absurd ⟨beq_iff_eq.mp hqi, beq_iff_eq.mp hqd⟩ hqpair
        simp [List.filter, hb]
      rw [hsingle, List.append_nil]

/-- Processing a batch whose only PoI of a pair is p, with p's triple not
yet stored, inserts exactly one row of that pair: p's row. -/
theorem insertPhase_pair_insert (i d : Nat) (p : WritablePoi)
    (hpi : p.indexer = i) (hpd : p.deployment = d) :
    ∀ (batch : List WritablePoi) (pre newRows : List PoiRow),
      p ∈ batch →
      (∀ q ∈ batch, q.indexer = i → q.deployment = d → q = p) →
      (∀ r ∈ pre ++ newRows, sameTriple p r = false) →
      rowsForPair i d newRows = [] →
      rowsForPair i d (insertPhase pre newRows batch) = [rowOfPoi p] := by
  intro batch
  induction batch with
  | nil => intro pre newRows hp _ _ _; simp at hp
  | cons q qs ih =>
    intro pre newRows hp huniq hfresh hnew
    rw [insertPhase]
    by_cases hconf : ((pre ++ newRows).any (sameTriple q)) = true
    · rw [if_pos hconf]
      have hqp : q ≠ p := by
        rintro rfl
        rw [List.any_eq_true] at hconf
        obtain ⟨r, hr, hcr⟩ := hconf
        rw [hfresh r hr] at hcr
        exact Bool.false_ne_true hcr
      have hp2 : p ∈ qs := by
        rcases List.mem_cons.mp hp with heq | h
        · exact absurd heq.symm hqp
        · exact h
      exact ih pre newRows hp2
        (fun x hx hxi hxd => huniq x (List.mem_cons_of_mem _ hx) hxi hxd)
        hfresh hnew
    · rw [if_neg hconf]
      by_cases hq : q.indexer = i ∧ q.deployment = d
      · have hqp : q = p := huniq q (List.mem_cons_self _ _) hq.1 hq.2
        subst hqp
        rw [insertPhase_pair_stable i d q qs pre (newRows ++ [rowOfPoi q])
          (fun x hx hxi hxd => huniq x (List.mem_cons_of_mem _ hx) hxi hxd)
          (List.mem_append_right _ (List.mem_cons_self _ _))]
        unfold rowsForPair
        rw [List.filter_append]
        have hnew2 : List.filter
            (fun r => r.indexer == i && r.deployment == d) newRows = [] := hnew
        rw [hnew2, List.nil_append]
        simp [List.filter, rowOfPoi, hq.1, hq.2]
      · have hp2 : p ∈ qs := by
          rcases List.mem_cons.mp hp with heq | h
          · exact absurd ⟨heq ▸ hpi, heq ▸ hpd⟩ hq
          · exact h
        have hfresh2 : ∀ r ∈ pre ++ (newRows ++ [rowOfPoi q]),
            sameTriple p r = false := by
          intro r hr
          rw [List.mem_append] at hr
          rcases hr with hr | hr
          · exact hfresh r (List.mem_append_left _ hr)
          · rw [List.mem_append] at hr
            rcases hr with hr | hr
            · exact hfresh r (List.mem_append_right _ hr)
            · have hrq : r = rowOfPoi q := by simpa using hr
              subst hrq
              cases hqi : q.indexer == p.indexer with
              | false => simp [sameTriple, rowOfPoi, hqi]
              | true =>
                cases hqd : q.deployment == p.deployment with
                | false => simp [sameTriple, rowOfPoi, hqi, hqd]
                | true =>
                  exact absurd
                    ⟨(beq_iff_eq.mp hqi).trans hpi,
                     (beq_iff_eq.mp hqd).trans hpd⟩ hq
        have hnew2 : rowsForPair i d (newRows ++ [rowOfPoi q]) = [] := by
          unfold rowsForPair at *
          rw [List.filter_append, hnew, List.nil_append]
          have hb : ((rowOfPoi q).indexer == i &&
              (rowOfPoi q).deployment == d) = false := by
            cases hqi : q.indexer == i with
            | false => simp [rowOfPoi, hqi]
            | true =>
              cases hqd : q.deployment == d with
              | false => simp [rowOfPoi, hqi, hqd]
              | true =>
                exact absurd ⟨beq_iff_eq.mp hqi, beq_iff_eq.mp hqd⟩ hq
          simp [List.filter, hb]
        exact ih pre (newRows ++ [rowOfPoi q]) hp2
          (fun x hx hxi hxd => huniq x (List.mem_cons_of_mem _ hx) hxi hxd)
          hfresh2 hnew2

/-- Rows cleared to not-live never pass the live filter. -/
theorem filter_live_map_clear (l : List PoiRow) :
    (l.map (setLive false)).filter (fun r => r.live) = [] := by
  induction l with
  | nil => rfl
  | cons r rs ih =>
    rw [List.map_cons, List.filter_cons]
    simp only [setLive, ite_false]
    exact ih

/-- Restricting to one (indexer, deployment) pair distributes over list
append. -/
theorem rowsForPair_append (i d : Nat) (l1 l2 : List PoiRow) :
    rowsForPair i d (l1 ++ l2) = rowsForPair i d l1 ++ rowsForPair i d l2 := by
  unfold rowsForPair
  exact List.filter_append _ _

/-- C1 counterexample: a live batch whose single PoI duplicates an
already-stored (indexer, deployment, block) triple. The insert is ignored,
so no newly inserted row exists to mark live, while the pre-existing live
row of the touched pair is cleared: after the call the pair has zero live
rows, not exactly one. -/
theorem c1_counterexample :
    ((rowsForPair 0 0 (write_pois [⟨0, 0, 5, 7, true⟩] [⟨0, 0, 5, 7⟩]
      .Live)).filter fun r => r.live).length = 0 ∧ (0 : Nat) ≠ 1 := by
  decide

/-- C1 as amended: for a batch written with liveness Live, every
(indexer, deployment) pair touched by exactly one batch PoI whose
(indexer, deployment, block) triple is not already stored ends the call
with exactly one live row, the newly written one, and with every
pre-existing row of the pair not-live; the whole write is a single state
transition, mirroring the one transaction of Store::write_pois. -/
theorem c1_write_pois_live (rows : List PoiRow) (batch : List WritablePoi)
    (i d : Nat) (p : WritablePoi) (hp : p ∈ batch) (hpi : p.indexer = i)
    (hpd : p.deployment = d)
    (huniq : ∀ q ∈ batch, q.indexer = i → q.deployment = d → q = p)
    (hfresh : ∀ r ∈ rows, sameTriple p r = false) :
    rowsForPair i d (write_pois rows batch .Live) =
      (rowsForPair i d rows).map (setLive false) ++
        [⟨i, d, p.block, p.digest, true⟩] ∧
    ((rowsForPair i d (write_pois rows batch .Live)).filter
      fun r => r.live).length = 1 := by
  have hnewp : rowsForPair i d (insertPhase rows [] batch) = [rowOfPoi p] :=
    insertPhase_pair_insert i d p hpi hpd batch rows [] hp huniq
      (by simpa using hfresh) rfl
  have hw : write_pois rows batch .Live =
      rows.map (fun r => if touchedBy batch r then setLive false r else r)
        ++ (insertPhase rows [] batch).map (setLive true) := rfl
  have hsplit : rowsForPair i d (write_pois rows batch .Live) =
      (rowsForPair i d rows).map (setLive false) ++
        [⟨i, d, p.block, p.digest, true⟩] := by
    rw [hw, rowsForPair_append,
      rowsForPair_map_clear batch i d p hp hpi hpd rows,
      rowsForPair_map_setLive, hnewp]
    simp [rowOfPoi, setLive, hpi, hpd]
  refine ⟨hsplit, ?_⟩
  rw [hsplit, List.filter_append, filter_live_map_clear]
  simp

/-- Witness for C1 at a concrete input: re-polling the pair (0, 0) at a new
block 6 marks the new row live and clears the previous live row at block
5. -/
theorem c1_witness :
    rowsForPair 0 0 (write_pois [⟨0, 0, 5, 7, true⟩] [⟨0, 0, 6, 9⟩] .Live) =
      (rowsForPair 0 0 [⟨0, 0, 5, 7, true⟩]).map (setLive false) ++
        [⟨0, 0, 6, 9, true⟩] ∧
    ((rowsForPair 0 0 (write_pois [⟨0, 0, 5, 7, true⟩] [⟨0, 0, 6, 9⟩]
      .Live)).filter fun r => r.live).length = 1 :=
  c1_write_pois_live [⟨0, 0, 5, 7, true⟩] [⟨0, 0, 6, 9⟩] 0 0 ⟨0, 0, 6, 9⟩
    (by decide) rfl rfl (by decide) (by decide)

/-- Normalized form of write_divergence_bisect_report when both PoIs are
stored: the inserted pair is (min, max) of the two internal ids. -/
theorem wdbr_eq (st : ReportStore) (p q : String) (b a1 a2 : Nat)
    (h1 : poiLookup st p = some a1) (h2 : poiLookup st q = some a2) :
    write_divergence_bisect_report st p q b =
      if st.reports.any (fun r =>
          r.poi1_id == min a1 a2 && r.poi2_id == max a1 a2) then none
      else
        some (st.nextReportId,
          { st with
            reports := st.reports ++
              [⟨st.nextReportId, min a1 a2, max a1 a2, b⟩]
            nextReportId := st.nextReportId + 1 }) := by
  unfold write_divergence_bisect_report
  simp only [h1, h2]
  rcases Nat.lt_or_ge a1 a2 with h | h
  · simp only [if_pos h, min_eq_left (Nat.le_of_lt h),
      max_eq_right (Nat.le_of_lt h)]
  · simp only [if_neg (not_lt.mpr h), min_eq_right h, max_eq_left h]

/-- C2 counterexample: submitting the same PoI pair twice, in either
order, does not make the second call succeed: the first call inserts the
row, the second hits the unique (poi1_id, poi2_id) constraint and errors. -/
theorem c2_counterexample :
    (write_divergence_bisect_report storeC "0xaa" "0xbb" 9).isSome = true ∧
    ((write_divergence_bisect_report storeC "0xaa" "0xbb" 9).bind fun x =>
      write_divergence_bisect_report x.2 "0xbb" "0xaa" 9) = none := by
  decide

/-- C2 as amended: write_divergence_bisect_report is commutative in its
two PoI arguments (the pair is normalized so the smaller internal id is
stored first), and re-submission of the same pair does not duplicate the
row: the first call inserts the single normalized row, the swapped
re-submission fails on the unique (poi1_id, poi2_id) constraint, and
exactly one row for the pair remains. -/
theorem c2_bisect_report_normalized (st : ReportStore) (p q : String)
    (b a1 a2 : Nat) (h1 : poiLookup st p = some a1)
    (h2 : poiLookup st q = some a2)
    (hno : (st.reports.any fun r =>
      r.poi1_id == min a1 a2 && r.poi2_id == max a1 a2) = false) :
    write_divergence_bisect_report st q p b =
      write_divergence_bisect_report st p q b ∧
    ∃ st1,
      write_divergence_bisect_report st p q b =
        some (st.nextReportId, st1) ∧
      st1.reports = st.reports ++
        [⟨st.nextReportId, min a1 a2, max a1 a2, b⟩] ∧
      write_divergence_bisect_report st1 q p b = none ∧
      (st1.reports.filter fun r =>
        r.poi1_id == min a1 a2 && r.poi2_id == max a1 a2).length = 1 := by
  have hcomm : write_divergence_bisect_report st q p b =
      write_divergence_bisect_report st p q b := by
    rw [wdbr_eq st p q b a1 a2 h1 h2, wdbr_eq st q p b a2 a1 h2 h1,
      min_comm a2 a1, max_comm a2 a1]
  have hfirst : write_divergence_bisect_report st p q b =
      some (st.nextReportId,
        { st with
          reports := st.reports ++
            [⟨st.nextReportId, min a1 a2, max a1 a2, b⟩]
          nextReportId := st.nextReportId + 1 }) := by
    rw [wdbr_eq st p q b a1 a2 h1 h2, hno]
    simp
  refine ⟨hcomm, ⟨_, hfirst, rfl, ?_, ?_⟩⟩
  · have h1b : poiLookup
        { st with
          reports := st.reports ++
            [⟨st.nextReportId, min a1 a2, max a1 a2, b⟩]
          nextReportId := st.nextReportId + 1 } q = some a2 := h2
    have h2b : poiLookup
        { st with
          reports := st.reports ++
            [⟨st.nextReportId, min a1 a2, max a1 a2, b⟩]
          nextReportId := st.nextReportId + 1 } p = some a1 := h1
    rw [wdbr_eq _ q p b a2 a1 h1b h2b, min_comm a2 a1, max_comm a2 a1]
    rw [if_pos]
    rw [List.any_eq_true]
    exact ⟨⟨st.nextReportId, min a1 a2, max a1 a2, b⟩,
      List.mem_append_right _ (List.mem_cons_self _ _), by simp⟩
  · rw [List.filter_append]
    have hnil : (st.reports.filter fun r =>
        r.poi1_id == min a1 a2 && r.poi2_id == max a1 a2) = [] := by
      rw [List.filter_eq_nil_iff]
      exact List.any_eq_false.mp hno
    rw [hnil, List.nil_append]
    simp

/-- Witness for C2 at a concrete input: submitting the pair of stored PoIs
0xaa (id 1) and 0xbb (id 2) to an empty reports table inserts one
normalized row, and the swapped re-submission errors leaving that single
row. -/
theorem c2_witness :
    write_divergence_bisect_report storeC "0xbb" "0xaa" 9 =
      write_divergence_bisect_report storeC "0xaa" "0xbb" 9 ∧
    ∃ st1,
      write_divergence_bisect_report storeC "0xaa" "0xbb" 9 =
        some (storeC.nextReportId, st1) ∧
      st1.reports = storeC.reports ++
        [⟨storeC.nextReportId, min 1 2, max 1 2, 9⟩] ∧
      write_divergence_bisect_report st1 "0xbb" "0xaa" 9 = none ∧
      (st1.reports.filter fun r =>
        r.poi1_id == min 1 2 && r.poi2_id == max 1 2).length = 1 :=
  c2_bisect_report_normalized storeC "0xaa" "0xbb" 9 1 2 (by decide)
    (by decide) (by decide)

end GraphIxi
